import Mathlib

/-!
Shallow embedding of the endian-tagged integer value type `tjg::Int<T,E>`
from `src/Int.hpp`, together with proofs about the specification claims.

Integral machine types are modelled as a signedness flag plus a byte count;
a value is modelled by its stored physical bit pattern, a natural number
below `2 ^ (8 * bytes)`, together with its byte-order tag.  The host's
native byte order is threaded through as an explicit parameter `nv`, so
every theorem holds on both little-endian and big-endian hosts.
-/

namespace tjg

/-- Model of `std::endian`: the two physical byte orders. -/
inductive Endian where
  | little : Endian
  | big : Endian
deriving DecidableEq, Repr

/-- Model of `std::operator~(endian)` from `Int.hpp`: swaps little and big. -/
def Endian.flip : Endian → Endian
  | .little => .big
  | .big => .little

/-- Model of a host integral type: signedness plus object size in bytes. -/
structure IntTy where
  signed : Bool
  bytes : Nat
deriving DecidableEq, Repr

/-- Bit width of the type, `8 * sizeof(T)`. -/
def IntTy.width (t : IntTy) : Nat := 8 * t.bytes

/-- Number of distinct bit patterns of the type, `2 ^ width`. -/
def IntTy.card (t : IntTy) : Nat := 2 ^ t.width

/-- The little-endian byte decomposition of a pattern, `n` bytes. -/
def bytesOfNat : Nat → Nat → List Nat
  | 0, _ => []
  | n + 1, x => x % 256 :: bytesOfNat n (x / 256)

/-- Reassemble a little-endian byte list into a pattern. -/
def natOfBytes : List Nat → Nat
  | [] => 0
  | b :: bs => b + 256 * natOfBytes bs

/-- Model of `std::byteswap` on an `n`-byte pattern: reverse the bytes. -/
def bswap (n x : Nat) : Nat := natOfBytes (bytesOfNat n x).reverse

/-- Model of `tjg::Int<T,E>`: the underlying type, the byte-order tag `E`,
and the stored physical bit pattern `_raw`. -/
structure Int where
  ty : IntTy
  en : Endian
  raw : Nat
deriving DecidableEq, Repr

/-- Well-formedness: the stored pattern fits in the type's width, as the
object representation of a real machine integer always does. -/
def Int.WF (x : Int) : Prop := x.raw < x.ty.card

instance Int.instDecidableWF (x : Int) : Decidable x.WF :=
  inferInstanceAs (Decidable (x.raw < x.ty.card))

/-- Model of the private member `_get<Rep>`: the pattern read in byte order
`rep`, byteswapping exactly when the stored tag differs from `rep`. -/
def Int.get (x : Int) (rep : Endian) : Nat :=
  if x.en = rep then x.raw else bswap x.ty.bytes x.raw

/-- Model of `value()`: the logical pattern, read in the native order `nv`. -/
def Int.value (nv : Endian) (x : Int) : Nat := x.get nv

/-- Model of `big()`: the pattern read as if stored big-endian. -/
def Int.bigV (x : Int) : Nat := x.get .big

/-- Model of `little()`: the pattern read as if stored little-endian. -/
def Int.littleV (x : Int) : Nat := x.get .little

/-- Model of the private member `_set`: the raw pattern stored for logical
pattern `v` under tag `e` on a host whose native order is `nv`. -/
def setPat (nv : Endian) (t : IntTy) (e : Endian) (v : Nat) : Nat :=
  if e = nv then v else bswap t.bytes v

/-- Model of the explicit constructor `Int(T x)`, which calls `_set(x)`. -/
def Int.ofVal (nv : Endian) (t : IntTy) (e : Endian) (v : Nat) : Int :=
  ⟨t, e, setPat nv t e v⟩

/-- Model of the default constructor: `_raw` is zero-initialized. -/
def Int.mkDefault (t : IntTy) (e : Endian) : Int := ⟨t, e, 0⟩

/-- Two's-complement reading of a pattern as a value of type `t`. -/
def toZ (t : IntTy) (p : Nat) : ℤ :=
  if t.signed = true ∧ t.card ≤ 2 * p then (p : ℤ) - (t.card : ℤ) else (p : ℤ)

/-- The mathematical integer denoted by `value()`. -/
def Int.valueZ (nv : Endian) (x : Int) : ℤ := toZ x.ty (x.value nv)

/-- Smallest value representable in the host type `t`. -/
def IntTy.minZ (t : IntTy) : ℤ :=
  if t.signed then -(2 ^ (t.width - 1) : ℤ) else 0

/-- Largest value representable in the host type `t`. -/
def IntTy.maxZ (t : IntTy) : ℤ :=
  if t.signed then (2 ^ (t.width - 1) : ℤ) - 1 else (2 ^ t.width : ℤ) - 1

/-- Membership in the value range of the host type `t`. -/
def inRange (t : IntTy) (v : ℤ) : Prop := t.minZ ≤ v ∧ v ≤ t.maxZ

/-- Model of the validity of list-initialization `To{x}` for an integral
`x : From` that is not a constant expression: it compiles exactly when the
conversion is non-narrowing, i.e. `To` represents every value of `From`. -/
def listInitOk (f t : IntTy) : Bool :=
  decide (t.minZ ≤ f.minZ) && decide (f.maxZ ≤ t.maxZ)

/-- Model of the concept `NonNarrowing<From, To>` from `Int.hpp`:
`same_as<From,To> || (convertible && To{x} well-formed)`. -/
def NonNarrowing (f t : IntTy) : Bool := decide (f = t) || listInitOk f t

/-- Whether `Int<T,E>::operator=(U)` resolves to a usable overload: the
usable overload requires `NonNarrowing<U,T>` and the matching overload for
`!NonNarrowing<U,T>` is explicitly deleted. -/
def assignOkPlain (u t : IntTy) : Bool := NonNarrowing u t

/-- Whether `Int<T,E>::operator=(Int<U,E2>)` resolves to a usable overload;
the `!NonNarrowing<U,T>` overload is explicitly deleted. -/
def assignOkInt (u t : IntTy) : Bool := NonNarrowing u t

/-- Whether strict brace initialization `Int<T,E>{src}` compiles when the
source has underlying type `U`: the conversion `U -> T` feeding the explicit
`Int(T)` constructor is subject to the list-init narrowing check. -/
def strictInitOk (u t : IntTy) : Bool := listInitOk u t

/-- Model of `endian_cast<To>`: `Int<T,To>{x}`, built from the logical
value of `x` through `operator T`. -/
def endian_cast (nv : Endian) (dst : Endian) (x : Int) : Int :=
  Int.ofVal nv x.ty dst (x.value nv)

/-- Model of `tjg::byteswap(Int<T,E>)`: `Int<T,~E>{x}`. -/
def byteswap (nv : Endian) (x : Int) : Int :=
  Int.ofVal nv x.ty x.en.flip (x.value nv)

/-- The pattern of the two's-complement truncation of `v` to type `t`; this
is the object representation produced by `static_cast<T>` on integers. -/
def truncPat (t : IntTy) (v : ℤ) : Nat := (v % (t.card : ℤ)).toNat

/-- Model of the scalar `tjg::narrow_cast<To>(From x)`, which is defined as
`static_cast<To>(x)`: truncate and reinterpret with the target signedness. -/
def narrow_cast (t : IntTy) (v : ℤ) : ℤ := toZ t (truncPat t v)

/-- Model of `tjg::narrow_cast<ToT>(Int<FmT,E>)`: the cross-type overload
builds `Int<ToT, native>` from the truncated logical value and the
same-type overload returns its argument unchanged. -/
def narrowCastInt (nv : Endian) (dst : IntTy) (x : Int) : Int :=
  if dst = x.ty then x else Int.ofVal nv dst nv (truncPat dst (x.valueZ nv))

/-- Model of `operator<=>`: compares `value()` with `value()`. -/
def Int.cmp (nv : Endian) (x y : Int) : Ordering :=
  compare (x.valueZ nv) (y.valueZ nv)

/-- Model of `operator|` between two values of one instantiation: bitwise
or of the raw patterns, tag and type unchanged. -/
def Int.orI (x y : Int) : Int := ⟨x.ty, x.en, x.raw ||| y.raw⟩

/-- Model of `operator&`: bitwise and of the raw patterns. -/
def Int.andI (x y : Int) : Int := ⟨x.ty, x.en, x.raw &&& y.raw⟩

/-- Model of `operator^`: bitwise xor of the raw patterns. -/
def Int.xorI (x y : Int) : Int := ⟨x.ty, x.en, x.raw ^^^ y.raw⟩

/-- Model of `operator~`: `_raw` is replaced by `narrow_cast<T>(~_raw)`,
the tag unchanged; complementing a promoted integer value `v` yields
`-1 - v`, then the truncation stores it back. -/
def Int.notI (x : Int) : Int := ⟨x.ty, x.en, truncPat x.ty (-1 - toZ x.ty x.raw)⟩

/-- Model of `operator!`: `!_raw`. -/
def Int.lnot (x : Int) : Bool := decide (x.raw = 0)

/-- Model of `explicit operator bool`: `bool(_raw)`. -/
def Int.toBool (x : Int) : Bool := decide (x.raw ≠ 0)

/-- Integer promotion of a host type: types narrower than `int` promote
to `int` (signed, four bytes); types of at least the rank of `int` are
unchanged by promotion. -/
def IntTy.promoted (t : IntTy) : IntTy := if t.bytes < 4 then ⟨true, 4⟩ else t

/-- Model of unary `operator-`: `-value()` is computed in the promoted
type of `T`, so the result wraps to that type's two's-complement range;
the signed-overflow case, undefined behavior in C++, is modelled as the
same wrap. -/
def Int.negZ (nv : Endian) (x : Int) : ℤ :=
  narrow_cast x.ty.promoted (-(x.valueZ nv))

/-- Tag flip is involutive. -/
theorem Endian.flip_flip (e : Endian) : e.flip.flip = e := by
  cases e <;> rfl

/-- On the two-element order domain, a tag distinct from `b` is `b.flip`. -/
theorem Endian.eq_flip_of_ne {a b : Endian} (h : a ≠ b) : a = b.flip := by
  cases a <;> cases b <;> first | rfl | exact absurd rfl h

/-- The byte decomposition of an `n`-byte pattern has `n` bytes. -/
theorem bytesOfNat_length (n : Nat) : ∀ x, (bytesOfNat n x).length = n := by
  induction n with
  | zero => intro x; rfl
  | succ n ih => intro x; simp [bytesOfNat, ih]

/-- Every entry of the byte decomposition is an actual byte. -/
theorem bytesOfNat_lt (n : Nat) : ∀ x, ∀ b ∈ bytesOfNat n x, b < 256 := by
  induction n with
  | zero => intro x b hb; simp [bytesOfNat] at hb
  | succ n ih =>
    intro x b hb
    simp only [bytesOfNat, List.mem_cons] at hb
    rcases hb with h | h
    · subst h; exact Nat.mod_lt _ (by omega)
    · exact ih _ b h

/-- Reassembling the byte decomposition of an in-range pattern is lossless. -/
theorem natOfBytes_bytesOfNat {n : Nat} : ∀ {x : Nat}, x < 2 ^ (8 * n) →
    natOfBytes (bytesOfNat n x) = x := by
  induction n with
  | zero =>
    intro x hx
    interval_cases x
    rfl
  | succ n ih =>
    intro x hx
    have hpow : 2 ^ (8 * (n + 1)) = 2 ^ (8 * n) * 256 := by
      rw [Nat.mul_succ, Nat.pow_add]
    have hdiv : x / 256 < 2 ^ (8 * n) := by
      rw [Nat.div_lt_iff_lt_mul (by omega : 0 < 256)]
      omega
    simp only [bytesOfNat, natOfBytes, ih hdiv]
    omega

/-- Reassembly of a list of `m` bytes stays below `2 ^ (8 * m)`. -/
theorem natOfBytes_lt : ∀ bs : List Nat, (∀ b ∈ bs, b < 256) →
    natOfBytes bs < 2 ^ (8 * bs.length) := by
  intro bs
  induction bs with
  | nil => intro _; simp [natOfBytes]
  | cons b bs ih =>
    intro h
    have hb : b < 256 := h b (List.mem_cons_self b bs)
    have hbs := ih (fun c hc => h c (List.mem_cons_of_mem b hc))
    have hpow : 2 ^ (8 * (bs.length + 1)) = 2 ^ (8 * bs.length) * 256 := by
      rw [Nat.mul_succ, Nat.pow_add]
    simp only [natOfBytes, List.length_cons]
    omega

/-- Decomposing a reassembled byte list gives back the list. -/
theorem bytesOfNat_natOfBytes : ∀ bs : List Nat, (∀ b ∈ bs, b < 256) →
    bytesOfNat bs.length (natOfBytes bs) = bs := by
  intro bs
  induction bs with
  | nil => intro _; rfl
  | cons b bs ih =>
    intro h
    have hb : b < 256 := h b (List.mem_cons_self b bs)
    have hmod : (b + 256 * natOfBytes bs) % 256 = b := by omega
    have hdiv : (b + 256 * natOfBytes bs) / 256 = natOfBytes bs := by omega
    simp only [natOfBytes, List.length_cons, bytesOfNat, hmod, hdiv,
      ih (fun c hc => h c (List.mem_cons_of_mem b hc))]

/-- A byteswapped `n`-byte pattern is an `n`-byte pattern. -/
theorem bswap_lt (n x : Nat) : bswap n x < 2 ^ (8 * n) := by
  have h := natOfBytes_lt (bytesOfNat n x).reverse
    (by intro b hb; exact bytesOfNat_lt n x b (List.mem_reverse.mp hb))
  simpa [bswap, bytesOfNat_length] using h

/-- Byte reversal of an in-range pattern is involutive. -/
theorem bswap_bswap {n x : Nat} (hx : x < 2 ^ (8 * n)) :
    bswap n (bswap n x) = x := by
  unfold bswap
  have hlen : (bytesOfNat n x).reverse.length = n := by
    simp [bytesOfNat_length]
  have hlt : ∀ b ∈ (bytesOfNat n x).reverse, b < 256 := by
    intro b hb; exact bytesOfNat_lt n x b (List.mem_reverse.mp hb)
  have h1 : bytesOfNat n (natOfBytes (bytesOfNat n x).reverse)
      = (bytesOfNat n x).reverse := by
    have := bytesOfNat_natOfBytes (bytesOfNat n x).reverse hlt
    rwa [hlen] at this
  rw [h1, List.reverse_reverse, natOfBytes_bytesOfNat hx]

/-- Card is the count of byte patterns of `bytes` bytes. -/
theorem IntTy.card_eq (t : IntTy) : t.card = 2 ^ (8 * t.bytes) := rfl

/-- Card is positive. -/
theorem IntTy.card_pos (t : IntTy) : 0 < t.card := Nat.pow_pos (by omega)

/-- Storing a pattern keeps it inside the type's width. -/
theorem setPat_lt (nv : Endian) (t : IntTy) (e : Endian) {v : Nat}
    (hv : v < t.card) : setPat nv t e v < t.card := by
  unfold setPat
  split
  · exact hv
  · exact bswap_lt t.bytes v

/-- Reading back a constructed value returns the logical pattern. -/
theorem Int.value_ofVal (nv : Endian) (t : IntTy) (e : Endian) {v : Nat}
    (hv : v < t.card) : (Int.ofVal nv t e v).value nv = v := by
  have hv8 : v < 2 ^ (8 * t.bytes) := hv
  simp only [Int.ofVal, Int.value, Int.get, setPat]
  by_cases he : e = nv
  · simp [he]
  · simp only [he, if_false, if_neg he]
    exact bswap_bswap hv8

/-- Constructed values are well formed. -/
theorem Int.wf_ofVal (nv : Endian) (t : IntTy) (e : Endian) {v : Nat}
    (hv : v < t.card) : (Int.ofVal nv t e v).WF :=
  setPat_lt nv t e hv

/-- The logical pattern of a well-formed value is in range. -/
theorem Int.value_lt (nv : Endian) {x : Int} (h : x.WF) :
    x.value nv < x.ty.card := by
  simp only [Int.value, Int.get]
  split
  · exact h
  · exact bswap_lt x.ty.bytes x.raw

/-- The stored pattern is recovered by re-storing the logical pattern. -/
theorem Int.raw_eq_setPat (nv : Endian) {x : Int} (h : x.WF) :
    x.raw = setPat nv x.ty x.en (x.value nv) := by
  have h8 : x.raw < 2 ^ (8 * x.ty.bytes) := h
  simp only [Int.value, Int.get, setPat]
  by_cases he : x.en = nv
  · simp [he]
  · simp only [he, if_false, if_neg he]
    exact (bswap_bswap h8).symm

/-- The zero pattern byteswaps to itself. -/
theorem bswap_zero (n : Nat) : bswap n 0 = 0 := by
  have h1 : ∀ m, bytesOfNat m 0 = List.replicate m 0 := by
    intro m
    induction m with
    | zero => rfl
    | succ m ih => simp [bytesOfNat, List.replicate, ih]
  have h2 : ∀ m, natOfBytes (List.replicate m 0) = 0 := by
    intro m
    induction m with
    | zero => rfl
    | succ m ih => simp [natOfBytes, List.replicate, ih]
  simp [bswap, h1, List.reverse_replicate, h2]

/-- Reading the zero pattern gives the value zero. -/
theorem toZ_zero (t : IntTy) : toZ t 0 = 0 := by
  have hc := t.card_pos
  unfold toZ
  split
  · next h => exact absurd h.2 (by omega)
  · rfl

/-- A pattern reads as zero exactly when it is the zero pattern. -/
theorem toZ_eq_zero_iff {t : IntTy} {p : Nat} (hp : p < t.card) :
    toZ t p = 0 ↔ p = 0 := by
  unfold toZ
  split
  · next h =>
    have h2 := h.2
    constructor
    · intro h0; omega
    · intro h0; omega
  · next h =>
    constructor
    · intro h0; exact_mod_cast h0
    · intro h0; simp [h0]

/-- Truncation lands inside the type's width. -/
theorem truncPat_lt (t : IntTy) (v : ℤ) : truncPat t v < t.card := by
  have hc : (0:ℤ) < (t.card : ℤ) := by exact_mod_cast t.card_pos
  have h1 : 0 ≤ v % (t.card : ℤ) := Int.emod_nonneg v (by omega)
  have h2 : v % (t.card : ℤ) < (t.card : ℤ) := Int.emod_lt_of_pos v hc
  unfold truncPat
  omega

/-- Truncating the reading of an in-width pattern returns the pattern. -/
theorem truncPat_toZ {t : IntTy} {p : Nat} (hp : p < t.card) :
    truncPat t (toZ t p) = p := by
  have hc : (0:ℤ) < (t.card : ℤ) := by exact_mod_cast t.card_pos
  have hpz : (p : ℤ) < (t.card : ℤ) := by exact_mod_cast hp
  have hmod : (p : ℤ) % (t.card : ℤ) = (p : ℤ) :=
    Int.emod_eq_of_lt (by positivity) hpz
  unfold truncPat toZ
  split
  · have hsub : ((p : ℤ) - (t.card : ℤ)) % (t.card : ℤ) = (p : ℤ) := by
      rw [Int.sub_emod, Int.emod_self, sub_zero,
        Int.emod_emod_of_dvd _ dvd_rfl, hmod]
    rw [hsub]
    omega
  · rw [hmod]
    omega

/-- Card as an integer power. -/
theorem IntTy.cardZ (t : IntTy) : (t.card : ℤ) = 2 ^ t.width := by
  unfold IntTy.card
  push_cast
  ring

/-- Card splits as twice the half-range, except in width zero. -/
theorem IntTy.card_split (t : IntTy) :
    (t.card : ℤ) = 2 * 2 ^ (t.width - 1) ∨
    ((t.card : ℤ) = 1 ∧ (2 : ℤ) ^ (t.width - 1) = 1) := by
  rcases Nat.eq_zero_or_pos t.width with hw | hw
  · right
    rw [t.cardZ, hw]
    constructor <;> norm_num
  · left
    rw [t.cardZ]
    have hw1 : t.width - 1 + 1 = t.width := by omega
    calc (2:ℤ) ^ t.width = 2 ^ (t.width - 1 + 1) := by rw [hw1]
      _ = 2 * 2 ^ (t.width - 1) := by ring

/-- Case characterization of the two's-complement reading. -/
theorem toZ_spec (t : IntTy) (p : Nat) :
    (t.signed = true ∧ (t.card : ℤ) ≤ 2 * p ∧ toZ t p = (p : ℤ) - t.card) ∨
    (¬(t.signed = true ∧ t.card ≤ 2 * p) ∧ toZ t p = (p : ℤ)) := by
  unfold toZ
  split
  · next h => exact Or.inl ⟨h.1, by exact_mod_cast h.2, rfl⟩
  · next h => exact Or.inr ⟨h, rfl⟩

/-- Case characterization of the representable range endpoints. -/
theorem range_spec (t : IntTy) :
    (t.signed = true ∧ t.minZ = -(2 ^ (t.width - 1) : ℤ) ∧
      t.maxZ = (2 ^ (t.width - 1) : ℤ) - 1) ∨
    (t.signed = false ∧ t.minZ = 0 ∧ t.maxZ = (t.card : ℤ) - 1) := by
  cases hs : t.signed
  · refine Or.inr ⟨rfl, ?_, ?_⟩ <;> simp [IntTy.minZ, IntTy.maxZ, hs, t.cardZ]
  · refine Or.inl ⟨rfl, ?_, ?_⟩ <;> simp [IntTy.minZ, IntTy.maxZ, hs]

/-- The two's-complement reading of any in-width pattern is in range. -/
theorem toZ_inRange {t : IntTy} {p : Nat} (hp : p < t.card) :
    inRange t (toZ t p) := by
  have hpz : (p : ℤ) < t.card := by exact_mod_cast hp
  have hc := t.card_split
  unfold inRange
  rcases toZ_spec t p with ⟨hs1, hs2, hs3⟩ | ⟨hs1, hs2⟩ <;>
    rcases range_spec t with ⟨hr1, hr2, hr3⟩ | ⟨hr1, hr2, hr3⟩
  · rw [hs3, hr2, hr3]
    rcases hc with hcq | ⟨hc1, hc2⟩ <;> constructor <;> omega
  · rw [hr1] at hs1
    exact absurd hs1 (by simp)
  · have h2p : 2 * p < t.card := by
      rcases Nat.lt_or_ge (2 * p) t.card with h | h
      · exact h
      · exact absurd ⟨hr1, h⟩ hs1
    have h2pz : 2 * (p : ℤ) < t.card := by exact_mod_cast h2p
    rw [hs2, hr2, hr3]
    rcases hc with hcq | ⟨hc1, hc2⟩ <;> constructor <;> omega
  · rw [hs2, hr2, hr3]
    constructor <;> omega

/-- Reading back the truncation of an in-range value of a real (at least
one byte wide) type returns the value. -/
theorem toZ_truncPat {t : IntTy} (hb : 1 ≤ t.bytes) {v : ℤ}
    (hv : inRange t v) : toZ t (truncPat t v) = v := by
  obtain ⟨hlo, hhi⟩ := hv
  have hw : 0 < t.width := by unfold IntTy.width; omega
  have hc : (t.card : ℤ) = 2 * 2 ^ (t.width - 1) := by
    rw [t.cardZ]
    have hw1 : t.width - 1 + 1 = t.width := by omega
    calc (2:ℤ) ^ t.width = 2 ^ (t.width - 1 + 1) := by rw [hw1]
      _ = 2 * 2 ^ (t.width - 1) := by ring
  have hcpos : (0:ℤ) < t.card := by exact_mod_cast t.card_pos
  have hvlt : v < (t.card : ℤ) := by
    rcases range_spec t with ⟨_, _, hr3⟩ | ⟨_, _, hr3⟩ <;> omega
  have hvge : -(t.card : ℤ) ≤ v := by
    rcases range_spec t with ⟨_, hr2, _⟩ | ⟨_, hr2, _⟩ <;> omega
  have hmod : v % (t.card : ℤ) = if 0 ≤ v then v else v + t.card := by
    split
    · next h0 => exact Int.emod_eq_of_lt h0 hvlt
    · next h0 =>
      have hkey : (v + (t.card : ℤ)) % t.card = v % t.card := by
        rw [Int.add_emod, Int.emod_self, add_zero,
          Int.emod_emod_of_dvd _ dvd_rfl]
      rw [← hkey]
      exact Int.emod_eq_of_lt (by omega) (by omega)
  have hpv : ((truncPat t v : Nat) : ℤ) = if 0 ≤ v then v else v + t.card := by
    unfold truncPat
    rw [hmod]
    split <;> omega
  rcases toZ_spec t (truncPat t v) with ⟨hp1, hp2, hp3⟩ | ⟨hp1, hp2⟩
  · rw [hp3, hpv]
    rw [hpv] at hp2
    rcases range_spec t with ⟨hr1, hr2, hr3⟩ | ⟨hr1, hr2, hr3⟩
    · by_cases h0 : 0 ≤ v
      · rw [if_pos h0] at hp2 ⊢
        omega
      · rw [if_neg h0] at hp2 ⊢
        ring
    · rw [hr1] at hp1
      exact absurd hp1 (by simp)
  · rw [hp2, hpv]
    by_cases h0 : 0 ≤ v
    · rw [if_pos h0]
    · rw [if_neg h0]
      rcases range_spec t with ⟨hr1, hr2, hr3⟩ | ⟨hr1, hr2, hr3⟩
      · exfalso
        apply hp1
        refine ⟨hr1, ?_⟩
        have hcle : (t.card : ℤ) ≤ 2 * ((truncPat t v : Nat) : ℤ) := by
          rw [hpv, if_neg h0]
          omega
        exact_mod_cast hcle
      · exact absurd (by omega : (0:ℤ) ≤ v) h0

/-- A tag never equals its flip. -/
theorem Endian.flip_ne (e : Endian) : e.flip ≠ e := by
  cases e <;> simp [Endian.flip]

/-- Reading a constructed value through any endian cast preserves it. -/
theorem endian_cast_value (nv o : Endian) {y : Int} (hy : y.WF) :
    (endian_cast nv o y).value nv = y.value nv :=
  Int.value_ofVal nv y.ty o (Int.value_lt nv hy)

/-- Endian casts preserve well-formedness. -/
theorem endian_cast_wf (nv o : Endian) {y : Int} (hy : y.WF) :
    (endian_cast nv o y).WF :=
  Int.wf_ofVal nv y.ty o (Int.value_lt nv hy)

/-- C3: applying the byte-order swap twice returns a value bit-identical in
raw storage and tag-identical to the original; a single application
preserves the logical value while reversing the physical bytes and
flipping the tag. -/
theorem c3_byteswap_involutive (nv : Endian) {x : Int} (h : x.WF) :
    byteswap nv (byteswap nv x) = x ∧
    (byteswap nv x).value nv = x.value nv ∧
    (byteswap nv x).raw = bswap x.ty.bytes x.raw ∧
    (byteswap nv x).en = x.en.flip := by
  have hv : x.value nv < x.ty.card := Int.value_lt nv h
  have hval : (byteswap nv x).value nv = x.value nv :=
    Int.value_ofVal nv x.ty x.en.flip hv
  have hraw8 : x.raw < 2 ^ (8 * x.ty.bytes) := h
  refine ⟨?_, hval, ?_, rfl⟩
  · show Int.ofVal nv x.ty x.en.flip.flip ((byteswap nv x).value nv) = x
    rw [hval, Endian.flip_flip]
    show (⟨x.ty, x.en, setPat nv x.ty x.en (x.value nv)⟩ : Int) = x
    rw [← Int.raw_eq_setPat nv h]
  · show setPat nv x.ty x.en.flip (x.value nv) = bswap x.ty.bytes x.raw
    by_cases he : x.en = nv
    · have hflip : x.en.flip ≠ nv := by rw [← he]; exact x.en.flip_ne
      have hvraw : x.value nv = x.raw := by
        simp [Int.value, Int.get, he]
      simp [setPat, hflip, hvraw]
    · have hflip : x.en.flip = nv := by
        have := Endian.eq_flip_of_ne (fun hx => he hx.symm)
        exact this.symm
      have hvraw : x.value nv = bswap x.ty.bytes x.raw := by
        simp [Int.value, Int.get, he]
      simp [setPat, hflip, hvraw]

/-- C3 witness at a concrete 16-bit value stored big-endian. -/
theorem c3_byteswap_involutive_witness :
    (Int.WF ⟨⟨false, 2⟩, Endian.big, 4660⟩) ∧
    (byteswap Endian.little (byteswap Endian.little ⟨⟨false, 2⟩, Endian.big, 4660⟩)
        = ⟨⟨false, 2⟩, Endian.big, 4660⟩ ∧
      (byteswap Endian.little ⟨⟨false, 2⟩, Endian.big, 4660⟩).value Endian.little
        = Int.value Endian.little ⟨⟨false, 2⟩, Endian.big, 4660⟩ ∧
      (byteswap Endian.little ⟨⟨false, 2⟩, Endian.big, 4660⟩).raw
        = bswap 2 4660 ∧
      (byteswap Endian.little ⟨⟨false, 2⟩, Endian.big, 4660⟩).en
        = Endian.big.flip) :=
  ⟨by decide, c3_byteswap_involutive Endian.little (by decide)⟩

/-- C4: an `Int<T,little>` and an `Int<T,big>` constructed from the same
logical value report that value via `value()`, and their raw stored bit
patterns are exact byte-reversals of one another. -/
theorem c4_cross_order_construction (nv : Endian) (t : IntTy)
    (hb : 1 < t.bytes) {v : Nat} (hv : v < t.card) :
    (Int.ofVal nv t .little v).value nv = v ∧
    (Int.ofVal nv t .big v).value nv = v ∧
    (Int.ofVal nv t .little v).raw = bswap t.bytes (Int.ofVal nv t .big v).raw := by
  refine ⟨Int.value_ofVal nv t .little hv, Int.value_ofVal nv t .big hv, ?_⟩
  have hv8 : v < 2 ^ (8 * t.bytes) := hv
  cases nv
  · show setPat .little t .little v = bswap t.bytes (setPat .little t .big v)
    have h1 : setPat .little t .little v = v := rfl
    have h2 : setPat .little t .big v = bswap t.bytes v := rfl
    rw [h1, h2, bswap_bswap hv8]
  · show setPat .big t .little v = bswap t.bytes (setPat .big t .big v)
    have h1 : setPat .big t .little v = bswap t.bytes v := rfl
    have h2 : setPat .big t .big v = v := rfl
    rw [h1, h2]

/-- C4 witness at a concrete 16-bit logical value. -/
theorem c4_cross_order_construction_witness :
    ((1 : Nat) < 2 ∧ (4660 : Nat) < IntTy.card ⟨false, 2⟩) ∧
    ((Int.ofVal Endian.big ⟨false, 2⟩ .little 4660).value Endian.big = 4660 ∧
      (Int.ofVal Endian.big ⟨false, 2⟩ .big 4660).value Endian.big = 4660 ∧
      (Int.ofVal Endian.big ⟨false, 2⟩ .little 4660).raw
        = bswap 2 (Int.ofVal Endian.big ⟨false, 2⟩ .big 4660).raw) :=
  ⟨⟨by decide, by decide⟩,
    c4_cross_order_construction Endian.big ⟨false, 2⟩ (by decide) (by decide)⟩

/-- C10: a default-constructed value holds all-zero raw storage, so
`value()`, `big()`, `little()` and `raw()` all return zero, boolean
conversion is false, and it equals `Int<T,E>{0}`. -/
theorem c10_default_zero (nv : Endian) (t : IntTy) (e : Endian) :
    (Int.mkDefault t e).raw = 0 ∧
    (Int.mkDefault t e).value nv = 0 ∧
    (Int.mkDefault t e).bigV = 0 ∧
    (Int.mkDefault t e).littleV = 0 ∧
    (Int.mkDefault t e).toBool = false ∧
    (Int.mkDefault t e).valueZ nv = 0 ∧
    Int.mkDefault t e = Int.ofVal nv t e 0 := by
  have hz : ∀ rep : Endian, (Int.mkDefault t e).get rep = 0 := by
    intro rep
    simp [Int.mkDefault, Int.get, bswap_zero]
  refine ⟨rfl, hz nv, hz .big, hz .little, by simp [Int.mkDefault, Int.toBool], ?_, ?_⟩
  · show toZ t ((Int.mkDefault t e).value nv) = 0
    rw [show (Int.mkDefault t e).value nv = 0 from hz nv, toZ_zero]
  · show (⟨t, e, 0⟩ : Int) = Int.ofVal nv t e 0
    simp [Int.ofVal, setPat, bswap_zero]

/-- On the two-element order domain a chain of two disequalities closes. -/
theorem Endian.eq_of_ne_of_ne {a b c : Endian} (h1 : a ≠ b) (h2 : b ≠ c) :
    a = c := by
  cases a <;> cases b <;> cases c <;> simp_all

/-- C5: re-tagging through order casts preserves the logical value, and an
order cast physically reorders the bytes only when the tags differ,
returning the argument unchanged otherwise. -/
theorem c5_endian_cast_value (nv o o2 : Endian) {x : Int} (h : x.WF) :
    (endian_cast nv o (endian_cast nv o2 x)).value nv = x.value nv ∧
    (o = x.en → endian_cast nv o x = x) ∧
    (o ≠ x.en → (endian_cast nv o x).raw = bswap x.ty.bytes x.raw) := by
  refine ⟨?_, ?_, ?_⟩
  · rw [endian_cast_value nv o (endian_cast_wf nv o2 h),
      endian_cast_value nv o2 h]
  · intro ho
    show (⟨x.ty, o, setPat nv x.ty o (x.value nv)⟩ : Int) = x
    rw [ho, ← Int.raw_eq_setPat nv h]
  · intro ho
    show setPat nv x.ty o (x.value nv) = bswap x.ty.bytes x.raw
    by_cases he : x.en = nv
    · have hone : o ≠ nv := fun hx => ho (hx.trans he.symm)
      have hvraw : x.value nv = x.raw := by simp [Int.value, Int.get, he]
      simp [setPat, hone, hvraw]
    · have hone : o = nv := Endian.eq_of_ne_of_ne ho he
      have hvraw : x.value nv = bswap x.ty.bytes x.raw := by
        simp [Int.value, Int.get, he]
      simp [setPat, hone, hvraw]

/-- C5 witness at a concrete 16-bit value stored big-endian. -/
theorem c5_endian_cast_value_witness :
    (Int.WF ⟨⟨false, 2⟩, Endian.big, 4660⟩) ∧
    (endian_cast Endian.little Endian.little
        (endian_cast Endian.little Endian.big
          ⟨⟨false, 2⟩, Endian.big, 4660⟩)).value Endian.little
      = Int.value Endian.little ⟨⟨false, 2⟩, Endian.big, 4660⟩ ∧
    (endian_cast Endian.little Endian.little
        ⟨⟨false, 2⟩, Endian.big, 4660⟩).raw = bswap 2 4660 := by
  have h := @c5_endian_cast_value Endian.little Endian.little Endian.big
    ⟨⟨false, 2⟩, Endian.big, 4660⟩ (by decide)
  exact ⟨by decide, h.1, h.2.2 (by decide)⟩

instance instDecidableInRange (t : IntTy) (v : ℤ) : Decidable (inRange t v) :=
  inferInstanceAs (Decidable (t.minZ ≤ v ∧ v ≤ t.maxZ))

/-- The representable range of every type is nonempty. -/
theorem IntTy.minZ_le_maxZ (t : IntTy) : t.minZ ≤ t.maxZ := by
  have ha : (0:ℤ) < 2 ^ (t.width - 1) := by positivity
  have hc : (0:ℤ) < (t.card : ℤ) := by exact_mod_cast t.card_pos
  rcases range_spec t with ⟨_, h2, h3⟩ | ⟨_, h2, h3⟩ <;> omega

/-- The modelled list-init check succeeds exactly when the destination can
represent every value of the source. -/
theorem listInitOk_iff (f t : IntTy) :
    listInitOk f t = true ↔ ∀ v : ℤ, inRange f v → inRange t v := by
  unfold listInitOk inRange
  rw [Bool.and_eq_true, decide_eq_true_iff, decide_eq_true_iff]
  constructor
  · rintro ⟨h1, h2⟩ v ⟨hv1, hv2⟩
    exact ⟨le_trans h1 hv1, le_trans hv2 h2⟩
  · intro h
    have hmm := f.minZ_le_maxZ
    have h1 := h f.minZ ⟨le_refl _, hmm⟩
    have h2 := h f.maxZ ⟨hmm, le_refl _⟩
    exact ⟨h1.1, h2.2⟩

/-- C1: when the destination type cannot represent every value of the
source type, both deleted assignment overloads reject the assignment and
strict brace initialization fails the narrowing check: no safe-path
conversion can silently lose value. -/
theorem c1_narrowing_rejected (u t : IntTy)
    (h : ¬ ∀ v : ℤ, inRange u v → inRange t v) :
    assignOkPlain u t = false ∧ assignOkInt u t = false ∧
    strictInitOk u t = false := by
  have hli : listInitOk u t = false := by
    rcases Bool.eq_false_or_eq_true (listInitOk u t) with ht | hf
    · exact absurd ((listInitOk_iff u t).mp ht) h
    · exact hf
  have hne : u ≠ t := by
    intro he
    subst he
    exact h (fun v hv => hv)
  unfold assignOkPlain assignOkInt NonNarrowing strictInitOk
  simp [hli, hne]

/-- C1 witness: a four-byte signed source into a two-byte signed target. -/
theorem c1_narrowing_rejected_witness :
    (¬ ∀ v : ℤ, inRange ⟨true, 4⟩ v → inRange ⟨true, 2⟩ v) ∧
    (assignOkPlain ⟨true, 4⟩ ⟨true, 2⟩ = false ∧
      assignOkInt ⟨true, 4⟩ ⟨true, 2⟩ = false ∧
      strictInitOk ⟨true, 4⟩ ⟨true, 2⟩ = false) := by
  have hno : ¬ ∀ v : ℤ, inRange ⟨true, 4⟩ v → inRange ⟨true, 2⟩ v := by
    intro hall
    have h1 : inRange ⟨true, 4⟩ 40000 := by decide
    have h2 := (hall 40000 h1).2
    have h3 : ¬ ((40000:ℤ) ≤ IntTy.maxZ ⟨true, 2⟩) := by decide
    exact h3 h2
  exact ⟨hno, c1_narrowing_rejected ⟨true, 4⟩ ⟨true, 2⟩ hno⟩

/-- C2: the explicit truncating cast on tagged values is total and its
logical value equals the source's logical value truncated to the low-order
bits of the destination and reinterpreted with its signedness, exactly the
semantics of the scalar `narrow_cast` (`static_cast`). -/
theorem c2_narrow_cast_value (nv : Endian) (dst : IntTy) {x : Int}
    (h : x.WF) (hb : 1 ≤ x.ty.bytes) :
    (narrowCastInt nv dst x).valueZ nv = narrow_cast dst (x.valueZ nv) ∧
    (dst ≠ x.ty → (narrowCastInt nv dst x).value nv
      = truncPat dst (x.valueZ nv)) := by
  constructor
  · by_cases hd : dst = x.ty
    · have hres : narrowCastInt nv dst x = x := by simp [narrowCastInt, hd]
      rw [hres]
      have hin : inRange dst (x.valueZ nv) := by
        rw [hd]
        exact toZ_inRange (Int.value_lt nv h)
      have hb2 : 1 ≤ dst.bytes := by rw [hd]; exact hb
      unfold narrow_cast
      rw [toZ_truncPat hb2 hin]
    · have hres : narrowCastInt nv dst x
          = Int.ofVal nv dst nv (truncPat dst (x.valueZ nv)) := by
        simp [narrowCastInt, hd]
      rw [hres]
      show toZ dst ((Int.ofVal nv dst nv (truncPat dst (x.valueZ nv))).value nv)
        = narrow_cast dst (x.valueZ nv)
      rw [Int.value_ofVal nv dst nv (truncPat_lt dst _)]
      rfl
  · intro hd
    have hres : narrowCastInt nv dst x
        = Int.ofVal nv dst nv (truncPat dst (x.valueZ nv)) := by
      simp [narrowCastInt, hd]
    rw [hres]
    exact Int.value_ofVal nv dst nv (truncPat_lt dst _)

/-- C2 witness: truncating a 16-bit value to 8 bits keeps the low byte. -/
theorem c2_narrow_cast_value_witness :
    (Int.WF ⟨⟨false, 2⟩, Endian.big, 4660⟩ ∧ 1 ≤ IntTy.bytes ⟨false, 2⟩) ∧
    ((narrowCastInt Endian.big ⟨false, 1⟩ ⟨⟨false, 2⟩, Endian.big, 4660⟩).valueZ
        Endian.big
      = narrow_cast ⟨false, 1⟩
          (Int.valueZ Endian.big ⟨⟨false, 2⟩, Endian.big, 4660⟩) ∧
    (narrowCastInt Endian.big ⟨false, 1⟩ ⟨⟨false, 2⟩, Endian.big, 4660⟩).value
        Endian.big
      = truncPat ⟨false, 1⟩
          (Int.valueZ Endian.big ⟨⟨false, 2⟩, Endian.big, 4660⟩)) := by
  have h := @c2_narrow_cast_value Endian.big ⟨false, 1⟩
    ⟨⟨false, 2⟩, Endian.big, 4660⟩ (by decide) (by decide)
  exact ⟨⟨by decide, by decide⟩, h.1, h.2 (by decide)⟩

/-- C9: the result tag of the truncating cast depends only on the types:
across types it is the host's native order regardless of the source tag,
and at the same type the cast is the identity, tag included. -/
theorem c9_narrow_cast_tag (nv : Endian) (dst : IntTy) (x : Int) :
    (dst = x.ty → narrowCastInt nv dst x = x) ∧
    (dst ≠ x.ty → (narrowCastInt nv dst x).ty = dst ∧
      (narrowCastInt nv dst x).en = nv) := by
  constructor
  · intro hd
    simp [narrowCastInt, hd]
  · intro hd
    simp [narrowCastInt, hd, Int.ofVal]

/-- C9 witness: one same-type cast and one cross-type cast. -/
theorem c9_narrow_cast_tag_witness :
    (narrowCastInt Endian.little ⟨false, 2⟩ ⟨⟨false, 2⟩, Endian.big, 4660⟩
      = ⟨⟨false, 2⟩, Endian.big, 4660⟩) ∧
    ((narrowCastInt Endian.little ⟨false, 1⟩
        ⟨⟨false, 2⟩, Endian.big, 4660⟩).ty = ⟨false, 1⟩ ∧
      (narrowCastInt Endian.little ⟨false, 1⟩
        ⟨⟨false, 2⟩, Endian.big, 4660⟩).en = Endian.little) :=
  ⟨(c9_narrow_cast_tag Endian.little ⟨false, 2⟩
      ⟨⟨false, 2⟩, Endian.big, 4660⟩).1 rfl,
    (c9_narrow_cast_tag Endian.little ⟨false, 1⟩
      ⟨⟨false, 2⟩, Endian.big, 4660⟩).2 (by decide)⟩

/-- An endian cast keeps the signed logical value. -/
theorem endian_cast_valueZ (nv o : Endian) {z : Int} (hz : z.WF) :
    (endian_cast nv o z).valueZ nv = z.valueZ nv := by
  show toZ z.ty ((endian_cast nv o z).value nv) = toZ z.ty (z.value nv)
  rw [endian_cast_value nv o hz]

/-- C6: values of one instantiation are equal exactly when their raw bit
patterns coincide, equivalently when their logical values coincide; the
ordering comparison is defined over logical values and is unchanged when
both operands are re-tagged to any other byte order. -/
theorem c6_equality_and_ordering (nv : Endian) {x y : Int}
    (hty : x.ty = y.ty) (hen : x.en = y.en) (hx : x.WF) (hy : y.WF) :
    (x = y ↔ x.raw = y.raw) ∧
    (x = y ↔ x.value nv = y.value nv) ∧
    Int.cmp nv x y = compare (x.valueZ nv) (y.valueZ nv) ∧
    (∀ e : Endian, Int.cmp nv (endian_cast nv e x) (endian_cast nv e y)
      = Int.cmp nv x y) := by
  have hraw_iff : x = y ↔ x.raw = y.raw := by
    constructor
    · intro heq
      rw [heq]
    · intro hraw
      cases x
      cases y
      simp_all
  refine ⟨hraw_iff, ?_, rfl, ?_⟩
  · constructor
    · intro heq
      rw [heq]
    · intro hval
      refine hraw_iff.mpr ?_
      rw [Int.raw_eq_setPat nv hx, Int.raw_eq_setPat nv hy, hty, hen, hval]
  · intro e
    show compare ((endian_cast nv e x).valueZ nv) ((endian_cast nv e y).valueZ nv)
      = compare (x.valueZ nv) (y.valueZ nv)
    rw [endian_cast_valueZ nv e hx, endian_cast_valueZ nv e hy]

/-- C6 witness at two concrete signed 16-bit big-endian values. -/
theorem c6_equality_and_ordering_witness :
    ((⟨⟨true, 2⟩, Endian.big, 5⟩ : Int) = ⟨⟨true, 2⟩, Endian.big, 40000⟩
      ↔ (5 : Nat) = 40000) ∧
    ((⟨⟨true, 2⟩, Endian.big, 5⟩ : Int) = ⟨⟨true, 2⟩, Endian.big, 40000⟩
      ↔ Int.value Endian.little ⟨⟨true, 2⟩, Endian.big, 5⟩
        = Int.value Endian.little ⟨⟨true, 2⟩, Endian.big, 40000⟩) ∧
    Int.cmp Endian.little ⟨⟨true, 2⟩, Endian.big, 5⟩
        ⟨⟨true, 2⟩, Endian.big, 40000⟩
      = compare (Int.valueZ Endian.little ⟨⟨true, 2⟩, Endian.big, 5⟩)
          (Int.valueZ Endian.little ⟨⟨true, 2⟩, Endian.big, 40000⟩) ∧
    Int.cmp Endian.little
        (endian_cast Endian.little Endian.little ⟨⟨true, 2⟩, Endian.big, 5⟩)
        (endian_cast Endian.little Endian.little
          ⟨⟨true, 2⟩, Endian.big, 40000⟩)
      = Int.cmp Endian.little ⟨⟨true, 2⟩, Endian.big, 5⟩
          ⟨⟨true, 2⟩, Endian.big, 40000⟩ := by
  have h := @c6_equality_and_ordering Endian.little
    ⟨⟨true, 2⟩, Endian.big, 5⟩ ⟨⟨true, 2⟩, Endian.big, 40000⟩
    rfl rfl (by decide) (by decide)
  exact ⟨h.1, h.2.1, h.2.2.1, h.2.2.2 Endian.little⟩

/-- Bitwise or commutes with the low-byte projection. -/
theorem lor_mod256 (a b : Nat) : (a ||| b) % 256 = a % 256 ||| b % 256 := by
  have h256 : (256 : Nat) = 2 ^ 8 := by norm_num
  rw [h256]
  apply Nat.eq_of_testBit_eq
  intro i
  simp only [Nat.testBit_lor, Nat.testBit_mod_two_pow]
  by_cases hi : i < 8 <;> simp [hi]

/-- Bitwise and commutes with the low-byte projection. -/
theorem land_mod256 (a b : Nat) : (a &&& b) % 256 = a % 256 &&& b % 256 := by
  have h256 : (256 : Nat) = 2 ^ 8 := by norm_num
  rw [h256]
  apply Nat.eq_of_testBit_eq
  intro i
  simp only [Nat.testBit_land, Nat.testBit_mod_two_pow]
  by_cases hi : i < 8 <;> simp [hi]

/-- Bitwise xor commutes with the low-byte projection. -/
theorem xor_mod256 (a b : Nat) : (a ^^^ b) % 256 = a % 256 ^^^ b % 256 := by
  have h256 : (256 : Nat) = 2 ^ 8 := by norm_num
  rw [h256]
  apply Nat.eq_of_testBit_eq
  intro i
  simp only [Nat.testBit_xor, Nat.testBit_mod_two_pow]
  by_cases hi : i < 8 <;> simp [hi]

/-- Bitwise or commutes with dropping the low byte. -/
theorem lor_div256 (a b : Nat) : (a ||| b) / 256 = a / 256 ||| b / 256 := by
  have h256 : ∀ c : Nat, c / 256 = c >>> 8 := by
    intro c
    rw [Nat.shiftRight_eq_div_pow]
  rw [h256, h256, h256]
  apply Nat.eq_of_testBit_eq
  intro i
  simp [Nat.testBit_lor, Nat.testBit_shiftRight]

/-- Bitwise and commutes with dropping the low byte. -/
theorem land_div256 (a b : Nat) : (a &&& b) / 256 = a / 256 &&& b / 256 := by
  have h256 : ∀ c : Nat, c / 256 = c >>> 8 := by
    intro c
    rw [Nat.shiftRight_eq_div_pow]
  rw [h256, h256, h256]
  apply Nat.eq_of_testBit_eq
  intro i
  simp [Nat.testBit_land, Nat.testBit_shiftRight]

/-- Bitwise xor commutes with dropping the low byte. -/
theorem xor_div256 (a b : Nat) : (a ^^^ b) / 256 = a / 256 ^^^ b / 256 := by
  have h256 : ∀ c : Nat, c / 256 = c >>> 8 := by
    intro c
    rw [Nat.shiftRight_eq_div_pow]
  rw [h256, h256, h256]
  apply Nat.eq_of_testBit_eq
  intro i
  simp [Nat.testBit_xor, Nat.testBit_shiftRight]

/-- A bytewise binary operation distributes over the byte decomposition. -/
theorem bytesOfNat_bitop (op : Nat → Nat → Nat)
    (hmod : ∀ a b, op a b % 256 = op (a % 256) (b % 256))
    (hdiv : ∀ a b, op a b / 256 = op (a / 256) (b / 256)) :
    ∀ n x y, bytesOfNat n (op x y)
      = List.zipWith op (bytesOfNat n x) (bytesOfNat n y) := by
  intro n
  induction n with
  | zero => intro x y; rfl
  | succ n ih =>
    intro x y
    simp only [bytesOfNat, List.zipWith, hmod, hdiv, ih]

/-- A width-stable bytewise binary operation distributes over reassembly. -/
theorem natOfBytes_zipWith (op : Nat → Nat → Nat)
    (hmod : ∀ a b, op a b % 256 = op (a % 256) (b % 256))
    (hdiv : ∀ a b, op a b / 256 = op (a / 256) (b / 256))
    (hlt : ∀ a b k, a < 2 ^ k → b < 2 ^ k → op a b < 2 ^ k)
    {bs cs : List Nat} (hlen : bs.length = cs.length)
    (hbs : ∀ b ∈ bs, b < 256) (hcs : ∀ c ∈ cs, c < 256) :
    natOfBytes (List.zipWith op bs cs) = op (natOfBytes bs) (natOfBytes cs) := by
  have hxb : natOfBytes bs < 2 ^ (8 * bs.length) := natOfBytes_lt bs hbs
  have hyb : natOfBytes cs < 2 ^ (8 * bs.length) := by
    rw [hlen]
    exact natOfBytes_lt cs hcs
  have h1 : bs = bytesOfNat bs.length (natOfBytes bs) :=
    (bytesOfNat_natOfBytes bs hbs).symm
  have h2 : cs = bytesOfNat bs.length (natOfBytes cs) := by
    conv_lhs => rw [← bytesOfNat_natOfBytes cs hcs]
    rw [hlen]
  calc natOfBytes (List.zipWith op bs cs)
      = natOfBytes (List.zipWith op (bytesOfNat bs.length (natOfBytes bs))
          (bytesOfNat bs.length (natOfBytes cs))) := by rw [← h1, ← h2]
    _ = natOfBytes (bytesOfNat bs.length (op (natOfBytes bs) (natOfBytes cs))) := by
          rw [bytesOfNat_bitop op hmod hdiv]
    _ = op (natOfBytes bs) (natOfBytes cs) :=
          natOfBytes_bytesOfNat (hlt _ _ _ hxb hyb)

/-- Byte reversal commutes with any width-stable bytewise operation. -/
theorem bswap_bitop (op : Nat → Nat → Nat)
    (hmod : ∀ a b, op a b % 256 = op (a % 256) (b % 256))
    (hdiv : ∀ a b, op a b / 256 = op (a / 256) (b / 256))
    (hlt : ∀ a b k, a < 2 ^ k → b < 2 ^ k → op a b < 2 ^ k)
    (n x y : Nat) :
    bswap n (op x y) = op (bswap n x) (bswap n y) := by
  unfold bswap
  rw [bytesOfNat_bitop op hmod hdiv n x y,
    List.reverse_zipWith (by simp [bytesOfNat_length])]
  exact natOfBytes_zipWith op hmod hdiv hlt
    (by simp [bytesOfNat_length])
    (fun b hb => bytesOfNat_lt n x b (List.mem_reverse.mp hb))
    (fun c hc => bytesOfNat_lt n y c (List.mem_reverse.mp hc))

/-- Byte reversal commutes with bitwise or. -/
theorem bswap_lor (n x y : Nat) :
    bswap n (x ||| y) = bswap n x ||| bswap n y :=
  bswap_bitop _ lor_mod256 lor_div256
    (fun _ _ _ ha hb => Nat.or_lt_two_pow ha hb) n x y

/-- Byte reversal commutes with bitwise and. -/
theorem bswap_land (n x y : Nat) :
    bswap n (x &&& y) = bswap n x &&& bswap n y :=
  bswap_bitop _ land_mod256 land_div256
    (fun _ _ _ ha _ => Nat.lt_of_le_of_lt Nat.and_le_left ha) n x y

/-- Byte reversal commutes with bitwise xor. -/
theorem bswap_xor (n x y : Nat) :
    bswap n (x ^^^ y) = bswap n x ^^^ bswap n y :=
  bswap_bitop _ xor_mod256 xor_div256
    (fun _ _ _ ha hb => Nat.xor_lt_two_pow ha hb) n x y

/-- C7: the bitwise operators between two tagged values of one
instantiation keep the type and tag with no byte reorder (the result's raw
pattern is the bitwise operation on the raw patterns), and the result's
logical value is the bitwise operation on the operands' logical values. -/
theorem c7_bitwise_ops (nv : Endian) {x y : Int}
    (hty : x.ty = y.ty) (hen : x.en = y.en) :
    ((x.orI y).ty = x.ty ∧ (x.orI y).en = x.en ∧
      (x.orI y).raw = x.raw ||| y.raw ∧
      (x.orI y).value nv = x.value nv ||| y.value nv) ∧
    ((x.andI y).ty = x.ty ∧ (x.andI y).en = x.en ∧
      (x.andI y).raw = x.raw &&& y.raw ∧
      (x.andI y).value nv = x.value nv &&& y.value nv) ∧
    ((x.xorI y).ty = x.ty ∧ (x.xorI y).en = x.en ∧
      (x.xorI y).raw = x.raw ^^^ y.raw ∧
      (x.xorI y).value nv = x.value nv ^^^ y.value nv) := by
  have key : ∀ op : Nat → Nat → Nat,
      (∀ n a b, bswap n (op a b) = op (bswap n a) (bswap n b)) →
      Int.value nv ⟨x.ty, x.en, op x.raw y.raw⟩
        = op (x.value nv) (y.value nv) := by
    intro op hop
    simp only [Int.value, Int.get]
    by_cases he : x.en = nv
    · have hy : y.en = nv := hen ▸ he
      rw [if_pos he, if_pos he, if_pos hy]
    · have hy : ¬ y.en = nv := fun hh => he (hen.trans hh)
      rw [if_neg he, if_neg he, if_neg hy, ← hty, hop]
  exact ⟨⟨rfl, rfl, rfl, key (· ||| ·) bswap_lor⟩,
    ⟨rfl, rfl, rfl, key (· &&& ·) bswap_land⟩,
    ⟨rfl, rfl, rfl, key (· ^^^ ·) bswap_xor⟩⟩

/-- C7 witness at two concrete 16-bit big-endian values. -/
theorem c7_bitwise_ops_witness :
    (Int.orI ⟨⟨false, 2⟩, Endian.big, 4660⟩
        ⟨⟨false, 2⟩, Endian.big, 255⟩).value Endian.little
      = Int.value Endian.little ⟨⟨false, 2⟩, Endian.big, 4660⟩
        ||| Int.value Endian.little ⟨⟨false, 2⟩, Endian.big, 255⟩ ∧
    (Int.andI ⟨⟨false, 2⟩, Endian.big, 4660⟩
        ⟨⟨false, 2⟩, Endian.big, 255⟩).value Endian.little
      = Int.value Endian.little ⟨⟨false, 2⟩, Endian.big, 4660⟩
        &&& Int.value Endian.little ⟨⟨false, 2⟩, Endian.big, 255⟩ ∧
    (Int.xorI ⟨⟨false, 2⟩, Endian.big, 4660⟩
        ⟨⟨false, 2⟩, Endian.big, 255⟩).value Endian.little
      = Int.value Endian.little ⟨⟨false, 2⟩, Endian.big, 4660⟩
        ^^^ Int.value Endian.little ⟨⟨false, 2⟩, Endian.big, 255⟩ := by
  have h := @c7_bitwise_ops Endian.little ⟨⟨false, 2⟩, Endian.big, 4660⟩
    ⟨⟨false, 2⟩, Endian.big, 255⟩ rfl rfl
  exact ⟨h.1.2.2.2, h.2.1.2.2.2, h.2.2.2.2.2⟩

/-- The byte decomposition of the complement is the bytewise complement. -/
theorem bytesOfNat_compl : ∀ n p, p < 2 ^ (8 * n) →
    bytesOfNat n (2 ^ (8 * n) - 1 - p)
      = List.map (fun b => 255 - b) (bytesOfNat n p) := by
  intro n
  induction n with
  | zero => intro p hp; rfl
  | succ n ih =>
    intro p hp
    have hpow : 2 ^ (8 * (n + 1)) = 2 ^ (8 * n) * 256 := by
      rw [Nat.mul_succ, Nat.pow_add]
    have hq : p / 256 < 2 ^ (8 * n) := by
      rw [Nat.div_lt_iff_lt_mul (by omega : 0 < 256)]
      omega
    have h1 : (2 ^ (8 * (n + 1)) - 1 - p) % 256 = 255 - p % 256 := by omega
    have h2 : (2 ^ (8 * (n + 1)) - 1 - p) / 256 = 2 ^ (8 * n) - 1 - p / 256 := by
      omega
    simp only [bytesOfNat, List.map, h1, h2, ih (p / 256) hq]

/-- Reassembly of a bytewise-complemented byte list is the complement. -/
theorem natOfBytes_map_compl : ∀ bs : List Nat, (∀ b ∈ bs, b < 256) →
    natOfBytes (bs.map (fun b => 255 - b))
      = 2 ^ (8 * bs.length) - 1 - natOfBytes bs := by
  intro bs
  induction bs with
  | nil => intro _; rfl
  | cons b bs ih =>
    intro h
    have hb : b < 256 := h b (List.mem_cons_self b bs)
    have hbs := ih (fun c hc => h c (List.mem_cons_of_mem b hc))
    have hlt := natOfBytes_lt bs (fun c hc => h c (List.mem_cons_of_mem b hc))
    have hpow : 2 ^ (8 * (bs.length + 1)) = 2 ^ (8 * bs.length) * 256 := by
      rw [Nat.mul_succ, Nat.pow_add]
    simp only [List.map, natOfBytes, List.length_cons, hbs]
    omega

/-- Byte reversal commutes with bitwise complement inside a fixed width. -/
theorem bswap_compl {n p : Nat} (hp : p < 2 ^ (8 * n)) :
    bswap n (2 ^ (8 * n) - 1 - p) = 2 ^ (8 * n) - 1 - bswap n p := by
  unfold bswap
  rw [bytesOfNat_compl n p hp, ← List.map_reverse,
    natOfBytes_map_compl (bytesOfNat n p).reverse
      (fun b hb => bytesOfNat_lt n p b (List.mem_reverse.mp hb))]
  simp [bytesOfNat_length]

/-- Truncating the complement of a pattern's reading yields the pattern's
complement. -/
theorem truncPat_compl {t : IntTy} {p : Nat} (hp : p < t.card) :
    truncPat t (-1 - toZ t p) = t.card - 1 - p := by
  have hcpos : (0:ℤ) < (t.card : ℤ) := by exact_mod_cast t.card_pos
  have hpz : (p : ℤ) < (t.card : ℤ) := by exact_mod_cast hp
  have key : (-1 - toZ t p) % (t.card : ℤ) = (t.card : ℤ) - 1 - p := by
    have hlt : ((t.card : ℤ) - 1 - p) % (t.card : ℤ) = (t.card : ℤ) - 1 - p :=
      Int.emod_eq_of_lt (by omega) (by omega)
    rcases toZ_spec t p with ⟨_, _, h3⟩ | ⟨_, h3⟩
    · rw [h3]
      have harr : -1 - ((p : ℤ) - t.card) = (t.card : ℤ) - 1 - p := by ring
      rw [harr, hlt]
    · rw [h3]
      have harr : -1 - (p : ℤ) = ((t.card : ℤ) - 1 - p) - t.card := by ring
      rw [harr, Int.sub_emod, Int.emod_self, sub_zero,
        Int.emod_emod_of_dvd _ dvd_rfl, hlt]
  unfold truncPat
  rw [key]
  omega

/-- A well-formed value has zero logical pattern exactly on zero storage. -/
theorem value_eq_zero_iff (nv : Endian) {x : Int} (h : x.WF) :
    x.value nv = 0 ↔ x.raw = 0 := by
  constructor
  · intro hv
    have := Int.raw_eq_setPat nv h
    rw [hv] at this
    simpa [setPat, bswap_zero] using this
  · intro hr
    simp [Int.value, Int.get, hr, bswap_zero]

/-- The reading of a pattern is congruent to the pattern modulo card. -/
theorem toZ_emod (t : IntTy) (p : Nat) :
    toZ t p % (t.card : ℤ) = (p : ℤ) % t.card := by
  rcases toZ_spec t p with ⟨_, _, h3⟩ | ⟨_, h3⟩
  · rw [h3, Int.sub_emod, Int.emod_self, sub_zero,
      Int.emod_emod_of_dvd _ dvd_rfl]
  · rw [h3]

/-- Promoted types are always at least one byte wide. -/
theorem IntTy.promoted_bytes (t : IntTy) : 1 ≤ t.promoted.bytes := by
  unfold IntTy.promoted
  split
  · show 1 ≤ 4
    omega
  · next hn => omega

/-- The scalar truncating cast is congruent to its argument: the result
differs from the exact value only by a multiple of `2 ^ width`. -/
theorem narrow_cast_emod (t : IntTy) (v : ℤ) :
    narrow_cast t v % (t.card : ℤ) = v % t.card := by
  have hcpos : (0:ℤ) < (t.card : ℤ) := by exact_mod_cast t.card_pos
  have h1 : ((truncPat t v : Nat) : ℤ) = v % t.card := by
    unfold truncPat
    have := Int.emod_nonneg v (by omega : (t.card : ℤ) ≠ 0)
    omega
  unfold narrow_cast
  rw [toZ_emod, h1, Int.emod_emod_of_dvd _ dvd_rfl]

/-- The scalar truncating cast is exact on representable values. -/
theorem narrow_cast_eq_of_inRange {t : IntTy} (hb : 1 ≤ t.bytes) {v : ℤ}
    (hv : inRange t v) : narrow_cast t v = v := by
  unfold narrow_cast
  exact toZ_truncPat hb hv

/-- Negating any representable value of a type narrower than `int` stays
inside the promoted range, so below the rank of `int` the promoted
negation never wraps. -/
theorem neg_inRange_promoted {t : IntTy} (hb : 1 ≤ t.bytes)
    (hn : t.bytes < 4) {v : ℤ} (hv : inRange t v) :
    inRange t.promoted (-v) := by
  have hP : t.promoted = ⟨true, 4⟩ := by
    unfold IntTy.promoted
    rw [if_pos hn]
  have hw : t.width ≤ 24 := by unfold IntTy.width; omega
  obtain ⟨hlo, hhi⟩ := hv
  have hpow : (2:ℤ) ^ t.width ≤ 2 ^ 24 := pow_le_pow_right₀ (by norm_num) hw
  have hpow2 : (2:ℤ) ^ (t.width - 1) ≤ 2 ^ 24 :=
    pow_le_pow_right₀ (by norm_num) (by omega)
  have ha : (0:ℤ) < 2 ^ (t.width - 1) := by positivity
  have hc : (t.card : ℤ) = 2 ^ t.width := t.cardZ
  have h24 : (2:ℤ) ^ 24 = 16777216 := by norm_num
  have hbounds : -(16777216:ℤ) ≤ v ∧ v ≤ 16777216 := by
    rw [← h24]
    rcases range_spec t with ⟨_, h2, h3⟩ | ⟨_, h2, h3⟩ <;> constructor <;> omega
  have hmin : IntTy.minZ ⟨true, 4⟩ = -2147483648 := by decide
  have hmax : IntTy.maxZ ⟨true, 4⟩ = 2147483647 := by decide
  rw [hP]
  unfold inRange
  rw [hmin, hmax]
  omega

/-- C8 (amended): the unary operators act through the logical value as on
a plain integer: complement truncates the promoted bitwise complement of
the logical value, logical negation tests the value against zero, boolean
conversion tests it against nonzero, and unary minus negates the value in
the promoted type of `T`: the result is congruent to the exact negation
modulo `2 ^ promoted width`, equals it whenever the exact negation is
representable in the promoted type, and in particular is always exact for
types narrower than `int`. -/
theorem c8_unary_ops (nv : Endian) {x : Int} (h : x.WF) :
    (x.notI).value nv = x.ty.card - 1 - x.value nv ∧
    (x.notI).valueZ nv = narrow_cast x.ty (-1 - x.valueZ nv) ∧
    (x.lnot = true ↔ x.valueZ nv = 0) ∧
    (x.toBool = true ↔ ¬ x.valueZ nv = 0) ∧
    x.negZ nv % (x.ty.promoted.card : ℤ)
      = -(x.valueZ nv) % (x.ty.promoted.card : ℤ) ∧
    (inRange x.ty.promoted (-(x.valueZ nv)) → x.negZ nv = -(x.valueZ nv)) ∧
    (x.ty.bytes < 4 → 1 ≤ x.ty.bytes → x.negZ nv = -(x.valueZ nv)) := by
  have hval := Int.value_lt nv h
  have hraw : (x.notI).raw = x.ty.card - 1 - x.raw := truncPat_compl h
  have hvalue : (x.notI).value nv = x.ty.card - 1 - x.value nv := by
    show (x.notI).get nv = x.ty.card - 1 - x.get nv
    simp only [Int.notI, Int.get] at hraw ⊢
    rw [hraw]
    by_cases he : x.en = nv
    · rw [if_pos he, if_pos he]
    · rw [if_neg he, if_neg he, IntTy.card_eq, bswap_compl h]
  have hz_iff : x.valueZ nv = 0 ↔ x.raw = 0 :=
    (toZ_eq_zero_iff hval).trans (value_eq_zero_iff nv h)
  refine ⟨hvalue, ?_, ?_, ?_, ?_, ?_, ?_⟩
  · show toZ x.ty ((x.notI).value nv) = narrow_cast x.ty (-1 - x.valueZ nv)
    rw [hvalue]
    unfold narrow_cast Int.valueZ
    rw [truncPat_compl hval]
  · unfold Int.lnot
    rw [decide_eq_true_iff]
    exact hz_iff.symm
  · unfold Int.toBool
    rw [decide_eq_true_iff]
    exact not_congr hz_iff.symm
  · exact narrow_cast_emod x.ty.promoted (-(x.valueZ nv))
  · intro hin
    exact narrow_cast_eq_of_inRange x.ty.promoted_bytes hin
  · intro hn hb
    exact narrow_cast_eq_of_inRange x.ty.promoted_bytes
      (neg_inRange_promoted hb hn (toZ_inRange hval))

/-- C8 witness at a concrete 16-bit big-endian value, whose type is
narrower than `int`, so the negation is exact. -/
theorem c8_unary_ops_witness :
    (Int.WF ⟨⟨false, 2⟩, Endian.big, 4660⟩) ∧
    ((Int.notI ⟨⟨false, 2⟩, Endian.big, 4660⟩).value Endian.little
        = IntTy.card ⟨false, 2⟩ - 1
          - Int.value Endian.little ⟨⟨false, 2⟩, Endian.big, 4660⟩ ∧
      (Int.notI ⟨⟨false, 2⟩, Endian.big, 4660⟩).valueZ Endian.little
        = narrow_cast ⟨false, 2⟩
            (-1 - Int.valueZ Endian.little ⟨⟨false, 2⟩, Endian.big, 4660⟩) ∧
      (Int.lnot ⟨⟨false, 2⟩, Endian.big, 4660⟩ = true
        ↔ Int.valueZ Endian.little ⟨⟨false, 2⟩, Endian.big, 4660⟩ = 0) ∧
      (Int.toBool ⟨⟨false, 2⟩, Endian.big, 4660⟩ = true
        ↔ ¬ Int.valueZ Endian.little ⟨⟨false, 2⟩, Endian.big, 4660⟩ = 0) ∧
      Int.negZ Endian.little ⟨⟨false, 2⟩, Endian.big, 4660⟩
          % (IntTy.card (IntTy.promoted ⟨false, 2⟩) : ℤ)
        = -(Int.valueZ Endian.little ⟨⟨false, 2⟩, Endian.big, 4660⟩)
          % (IntTy.card (IntTy.promoted ⟨false, 2⟩) : ℤ) ∧
      Int.negZ Endian.little ⟨⟨false, 2⟩, Endian.big, 4660⟩
        = -(Int.valueZ Endian.little ⟨⟨false, 2⟩, Endian.big, 4660⟩)) := by
  have h := @c8_unary_ops Endian.little ⟨⟨false, 2⟩, Endian.big, 4660⟩ (by decide)
  exact ⟨by decide, h.1, h.2.1, h.2.2.1, h.2.2.2.1, h.2.2.2.2.1,
    h.2.2.2.2.2.2 (by decide) (by decide)⟩

/-- C8 counterexample: for `T = unsigned` (rank of `int`, so no
promotion) the source's `-value()` wraps modulo `2 ^ 32`; negating the
value five yields 4294967291, not the integer negation minus five. -/
theorem c8_neg_wraps_counterexample :
    Int.negZ Endian.little ⟨⟨false, 4⟩, Endian.little, 5⟩ = 4294967291 ∧
    ¬ Int.negZ Endian.little ⟨⟨false, 4⟩, Endian.little, 5⟩
      = -(Int.valueZ Endian.little ⟨⟨false, 4⟩, Endian.little, 5⟩) := by
  constructor
  · decide
  · decide

end tjg
